import Mathlib

/-!
A shallow embedding of `PyDirMap.py` (the `FileObject` tree model, the
`DirectoryMap` treemap layout, color and legend bookkeeping, and the timed
selection resolution), together with theorems checking the specification's
claims against it.

Python integers are modelled as `Nat` (all sizes in the program are
non-negative), Python floats as `ℚ`, Python dicts as association lists in
insertion order, and the `random` module as an abstract stream `Nat → Nat`
of successive `randint` results.
-/

namespace PyDirMap

/-- An RGB color triple (Python float triples modelled over `ℚ`). -/
abbrev Color := ℚ × ℚ × ℚ

/-- Line 18: `DIR = '<DIR>'`, the directory sentinel key. -/
def DIR : String := "<DIR>"

/-- Lines 23–25: the module-level extension→color dict `COLORS`, pre-seeded
with the directory sentinel mapped to `(.2,)*3`. -/
def COLORS : List (String × Color) := [(DIR, (1/5, 1/5, 1/5))]

/-- A `FileObject` (lines 28–49): a path, a size, a display label and the
`children` dict, modelled as the list of its values in insertion order
(the dict is keyed by each child's `path`).  The `parent` back-reference is
represented by the registration operation on the parent node instead of a
field, since it is used only for upward navigation. -/
inductive FileObject where
  | mk (path : String) (size : Nat) (label : String) (children : List FileObject)

/-- The node's `path` attribute. -/
def FileObject.path : FileObject → String
  | .mk p _ _ _ => p

/-- The node's `size` attribute. -/
def FileObject.size : FileObject → Nat
  | .mk _ s _ _ => s

/-- The node's `label` attribute. -/
def FileObject.label : FileObject → String
  | .mk _ _ l _ => l

/-- The values of the node's `children` dict, in insertion order. -/
def FileObject.children : FileObject → List FileObject
  | .mk _ _ _ c => c

/-- Python `s.find(c)`: the index of the first occurrence of `c`, `-1` when
`c` does not occur. -/
def pyFind (s : List Char) (c : Char) : Int :=
  match s.findIdx? (· = c) with
  | some i => (i : Int)
  | none => -1

/-- Python `s[-k:]` for a non-negative `k` coming from `find`: `-0` is `0`,
so `k = 0` denotes the whole string; otherwise the last `min k len`
characters. -/
def pySliceNeg (s : List Char) (k : Int) : List Char :=
  if k ≤ 0 then s else s.drop (s.length - k.toNat)

/-- Lines 41–42 of `FileObject.__init__`:
`dot = self.path[::-1].find('.')` and
`self.extension = self.path[-dot:].lower() if 0 <= dot <= 5 else '<DIR>'`. -/
def extensionOf (path : String) : String :=
  let dot := pyFind path.toList.reverse '.'
  if 0 ≤ dot ∧ dot ≤ 5 then String.mk ((pySliceNeg path.toList dot).map Char.toLower)
  else DIR

/-- The node's `extension` attribute, computed once at construction from the
(immutable) path. -/
def FileObject.extension (t : FileObject) : String :=
  extensionOf t.path

/-- Python dict assignment `d[path] = child` for a `children` dict keyed by
path: an existing entry with the same key is replaced in place, a fresh key
is appended. -/
def dictInsertChild (child : FileObject) : List FileObject → List FileObject
  | [] => [child]
  | c :: cs => if c.path = child.path then child :: cs else c :: dictInsertChild child cs

/-- Lines 37–38 of `FileObject.__init__`: registering the freshly constructed
node in `self.parent.children[path]`.  The constructor performs no duplicate
check: the dict assignment is unconditional. -/
def FileObject.register (parent child : FileObject) : FileObject :=
  .mk parent.path parent.size parent.label (dictInsertChild child parent.children)

/-- Python dict lookup on the `children` dict (keyed by each child's path). -/
def childLookup (path : String) : List FileObject → Option FileObject
  | [] => none
  | c :: cs => if c.path = path then some c else childLookup path cs

mutual
/-- `FileObject.rollup` (lines 44–49): postorder — recursively roll up every
child, add each child's (now final) `size` into this node's `size`, then set
`label = path + ' | ' + str(size//1024**2) + ' MB'`. -/
def FileObject.rollup : FileObject → FileObject
  | .mk p sz _ cs =>
    let cs' := rollupList cs
    let sz' := sz + (cs'.map FileObject.size).sum
    .mk p sz' (p ++ " | " ++ toString (sz' / 1024 ^ 2) ++ " MB") cs'

/-- `rollup` mapped over a `children` list, in order. -/
def rollupList : List FileObject → List FileObject
  | [] => []
  | c :: cs => c.rollup :: rollupList cs
end

mutual
/-- All nodes of the tree: the node itself and, recursively, every node of
each child's subtree. -/
def FileObject.subtrees : FileObject → List FileObject
  | .mk p sz lb cs => .mk p sz lb cs :: subtreesList cs

/-- `subtrees` over a list of trees, concatenated. -/
def subtreesList : List FileObject → List FileObject
  | [] => []
  | c :: cs => c.subtrees ++ subtreesList cs
end

mutual
/-- The sum of the sizes of the leaf nodes (nodes with an empty `children`
dict) of the tree. -/
def FileObject.leafSizes : FileObject → Nat
  | .mk _ sz _ [] => sz
  | .mk _ _ _ (c :: cs) => leafSizesList (c :: cs)

/-- `leafSizes` summed over a list of trees. -/
def leafSizesList : List FileObject → Nat
  | [] => 0
  | c :: cs => c.leafSizes + leafSizesList cs
end

/-- Every internal node (a node with a non-empty `children` dict) of the tree
has size 0 — the shape produced when directories are constructed with the
default `size=0` and only files carry sizes. -/
def internalZero (t : FileObject) : Bool :=
  t.subtrees.all fun s => s.children.isEmpty || s.size == 0

mutual
/-- Boolean structural equality of trees (for decidability of equality). -/
def FileObject.beq : FileObject → FileObject → Bool
  | .mk p s l c, .mk p' s' l' c' => p = p' && s = s' && l = l' && beqList c c'

/-- Pointwise `FileObject.beq` on lists. -/
def beqList : List FileObject → List FileObject → Bool
  | [], [] => true
  | a :: as, b :: bs => FileObject.beq a b && beqList as bs
  | [], _ :: _ => false
  | _ :: _, [] => false
end

mutual
theorem FileObject.beq_iff : ∀ a b, FileObject.beq a b = true ↔ a = b
  | .mk p s l c, .mk p' s' l' c' => by
    simp only [FileObject.beq, Bool.and_eq_true, decide_eq_true_eq,
      beqList_iff, FileObject.mk.injEq]
    tauto

theorem beqList_iff : ∀ as bs, beqList as bs = true ↔ as = bs
  | [], [] => by simp [beqList]
  | a :: as, b :: bs => by
    simp only [beqList, Bool.and_eq_true, FileObject.beq_iff, beqList_iff,
      List.cons.injEq]
  | [], _ :: _ => by simp [beqList]
  | _ :: _, [] => by simp [beqList]
end

instance : DecidableEq FileObject := fun a b =>
  decidable_of_iff _ (FileObject.beq_iff a b)

/-- Structural strong induction for `FileObject`: to prove `P` everywhere it
suffices to prove it at each node assuming it for all children. -/
theorem FileObject.strongInd {P : FileObject → Prop}
    (h : ∀ p sz lb cs, (∀ c ∈ cs, P c) → P (.mk p sz lb cs)) : ∀ t, P t
  | .mk p sz lb cs =>
    h p sz lb cs fun c hc =>
      have : sizeOf c < sizeOf (FileObject.mk p sz lb cs) := by
        have := List.sizeOf_lt_of_mem hc
        simp only [FileObject.mk.sizeOf_spec]
        omega
      FileObject.strongInd h c
termination_by t => sizeOf t

/-- A rectangle as passed around by `draw`: the dict
`{'x': …, 'y': …, 'dx': …, 'dy': …}` of line 67 and the dicts returned by
`squarify.squarify`. -/
structure Rect where
  x : ℚ
  y : ℚ
  dx : ℚ
  dy : ℚ
deriving DecidableEq

/-- The mutable state a `DirectoryMap` paints with (lines 63–68 and the
`random` module): the extension→color dict (the process-wide `COLORS` object),
the legend dict's keys in insertion order (its artist values carry no model
content), the `extension_count` list, `patch_dict` as an association list in
insertion order, and the current position in the random stream. -/
structure DrawState where
  colors : List (String × Color)
  legend : List String
  extensionCount : List String
  patchAssoc : List (Rect × FileObject)
  ridx : Nat

/-- `get_random_color()` (lines 224–225): three successive
`random.randint(0, 255)` draws, each divided by 256.  The stream `rnd` holds
the successive `randint` results; the second component is the updated stream
position. -/
def get_random_color (rnd : Nat → Nat) (i : Nat) : Color × Nat :=
  (((rnd i : ℚ) / 256, (rnd (i + 1) : ℚ) / 256, (rnd (i + 2) : ℚ) / 256), i + 3)

/-- Python dict assignment `d[k] = v` on an association list: replace the
entry in place when the key exists, append otherwise. -/
def dictSet (k : String) (v : Color) : List (String × Color) → List (String × Color)
  | [] => [(k, v)]
  | (k', v') :: rest => if k' = k then (k, v) :: rest else (k', v') :: dictSet k v rest

/-- `DirectoryMap.get_color` (lines 145–149): assign a fresh random color to
an unseen extension, append the extension to `extension_count`, and return
the (now cached) color for the extension. -/
def get_color (rnd : Nat → Nat) (extension : String) (s : DrawState) :
    Color × DrawState :=
  let s1 :=
    if (s.colors.lookup extension).isSome then s
    else
      let ci := get_random_color rnd s.ridx
      { s with colors := dictSet extension ci.1 s.colors, ridx := ci.2 }
  let s2 := { s1 with extensionCount := s1.extensionCount ++ [extension] }
  ((s2.colors.lookup extension).getD (0, 0, 0), s2)

/-- Lines 102–106 of `DirectoryMap.draw`: the direct children whose size
meets `minsize`, sorted by size descending (`list.sort` is stable, modelled
by `mergeSort` with the reversed comparison). -/
def eligibleChildren (minsize : Nat) (file : FileObject) : List FileObject :=
  (file.children.filter fun c => minsize ≤ c.size).mergeSort
    fun a b => decide (b.size ≤ a.size)

/-- Lines 107–109 of `DirectoryMap.draw`: the target areas handed to
`squarify.squarify` — each eligible child's size divided by the node's own
(full) size, times the rectangle's area `dx * dy`. -/
def scaledSizes (minsize : Nat) (file : FileObject) (rect : Rect) : List ℚ :=
  (eligibleChildren minsize file).map fun c =>
    (c.size : ℚ) / (file.size : ℚ) * (rect.dx * rect.dy)

/-- Lines 84–99 of `DirectoryMap.draw`, the per-node half: resolve the
node's color via `get_color`, record the `patch_dict[rect_patch] = file`
association of line 94, and on first encounter of the extension register the
legend entry and re-store the color under the extension key (lines 97–99). -/
def drawNode (rnd : Nat → Nat) (file : FileObject) (rect : Rect)
    (s : DrawState) : DrawState :=
  let extension := file.extension
  let cs := get_color rnd extension s
  let s2 := { cs.2 with patchAssoc := cs.2.patchAssoc ++ [(rect, file)] }
  if s2.legend.contains extension then s2
  else { s2 with legend := s2.legend ++ [extension],
                 colors := dictSet extension cs.1 s2.colors }

/-- `DirectoryMap.draw` (lines 81–112).  The squarify collaborator is the
parameter `sq`; matplotlib is not modelled, so registering a patch amounts to
the association recorded by `drawNode`, and the recursion descends into the
eligible children paired with the rectangles `squarify` returned. -/
def draw (rnd : Nat → Nat) (sq : List ℚ → Rect → List Rect) (minsize : Nat)
    (file : FileObject) (rect : Rect) (s : DrawState) : DrawState :=
  let s3 := drawNode rnd file rect s
  let children := eligibleChildren minsize file
  if children.isEmpty then s3
  else
    let rectangles := sq (scaledSizes minsize file rect) rect
    (children.zip rectangles).attach.foldl
      (fun acc p => draw rnd sq minsize p.1.1 p.1.2 acc) s3
termination_by sizeOf file
decreasing_by
  have h1 : p.1.1 ∈ children := (List.of_mem_zip p.2).1
  have h2 : p.1.1 ∈ file.children := by
    have := List.mem_mergeSort.mp h1
    exact (List.mem_filter.mp this).1
  cases file with
  | mk fp fs fl fcs =>
    have := List.sizeOf_lt_of_mem h2
    simp only [FileObject.children] at this
    simp only [FileObject.mk.sizeOf_spec]
    omega

/-- Line 68 of `DirectoryMap.__init__`:
`self.minsize = self.root_directory.size // resolution`. -/
def DirectoryMap.minsize (root_directory : FileObject) (resolution : Nat) : Nat :=
  root_directory.size / resolution

/-- The `DirectoryMap` state as initialized in lines 63–67, before `draw`
runs: the (shared) color dict as currently populated, an empty legend, an
empty `extension_count`, an empty `patch_dict`. -/
def DirectoryMap.initState (colors : List (String × Color)) (ridx : Nat) :
    DrawState :=
  { colors := colors, legend := [], extensionCount := [], patchAssoc := [],
    ridx := ridx }

/-- `DirectoryMap.make_legend` (lines 114–122): the legend dict's keys sorted
by descending `Counter(extension_count)` frequency.  Python's `sorted` with
`reverse=True` is stable, modelled by `mergeSort` with the reversed
comparison. -/
def make_legend (s : DrawState) : List String :=
  s.legend.mergeSort fun a b =>
    decide (s.extensionCount.count b ≤ s.extensionCount.count a)

/-- The per-view interactive state touched by `onpick`/`ontime`:
`click_list` (picked node, mouse button code) and the axes title. -/
structure ViewState where
  clickList : List (FileObject × Nat)
  title : String

/-- Python `max(iterable, key=lambda x: len(x[0].path))` on a non-empty
`click_list`: scan left to right, replacing the current best only on a
strictly greater key, so the first maximal element wins. -/
def maxByPathLen (e : FileObject × Nat) (rest : List (FileObject × Nat)) :
    FileObject × Nat :=
  rest.foldl (fun best x => if best.1.path.length < x.1.path.length then x else best) e

/-- `DirectoryMap.ontime` (lines 130–139), restricted to the state it
mutates: if `click_list` is empty do nothing; otherwise pick the entry with
the longest `path`, clear the list, and set the title to that node's
`label`.  The new windows spawned for buttons 3 and 2 (lines 140–143) build
fresh views and do not touch this state. -/
def ontime (s : ViewState) : ViewState :=
  match s.clickList with
  | [] => s
  | e :: rest => { clickList := [], title := (maxByPathLen e rest).1.label }

/-- A small concrete tree: a root directory holding a 5-byte file and a
subdirectory with a 7-byte file (sizes as produced by a scan, directories
created with the default size 0). -/
def exTree1 : FileObject :=
  .mk "r" 0 "" [.mk "r\\a" 5 "" [], .mk "r\\b" 0 "" [.mk "r\\b\\c" 7 "" []]]

/-- A root directory holding a single 5-byte file. -/
def exTree2 : FileObject := .mk "r" 0 "" [.mk "r\\a" 5 "" []]

/-- An already-aggregated root of size 6 with children of sizes 5 and 1. -/
def exTree3 : FileObject :=
  .mk "r" 6 "" [.mk "r\\a" 5 "" [], .mk "r\\b" 1 "" []]

/-! ### Extension derivation (claims C2, C10) -/

theorem pyFind_of_not_mem {s : List Char} {c : Char} (h : c ∉ s) :
    pyFind s c = -1 := by
  unfold pyFind
  have : s.findIdx? (· = c) = none := by
    rw [List.findIdx?_eq_none_iff]
    intro x hx
    simp only [decide_eq_false_iff_not]
    rintro rfl
    exact h hx
  rw [this]

theorem pyFind_append_cons {l r : List Char} {c : Char} (h : c ∉ l) :
    pyFind (l ++ c :: r) c = (l.length : Int) := by
  unfold pyFind
  have h1 : l.findIdx? (· = c) = none := by
    rw [List.findIdx?_eq_none_iff]
    intro x hx
    simp only [decide_eq_false_iff_not]
    rintro rfl
    exact h hx
  rw [List.findIdx?_append, h1, List.findIdx?_cons]
  simp

/-- C2 (counterexample): the claim's own example fails — for
`"archive.tar.gz"` the slice `path[-dot:]` starts strictly after the last
separator, so the constructed extension is `"gz"`, not `".gz"`. -/
theorem extension_drops_dot_counterexample :
    extensionOf "archive.tar.gz" = "gz" ∧ extensionOf "archive.tar.gz" ≠ ".gz" := by
  decide

/-- C2 (amended): writing the path as `pre ++ "." ++ suf` with no further
separator in `suf` (so the `.` shown is the last one): if at least one and at
most five characters follow the last separator, the extension is exactly
those trailing characters (the separator excluded), lower-cased; if more
than five follow, the node gets the directory sentinel key; and a path with
no separator at all also gets the sentinel key. -/
theorem extension_derivation_amended :
    (∀ (pre suf : List Char) (path : String),
      path.toList = pre ++ '.' :: suf → '.' ∉ suf →
        (1 ≤ suf.length → suf.length ≤ 5 →
          extensionOf path = String.mk (suf.map Char.toLower)) ∧
        (5 < suf.length → extensionOf path = DIR)) ∧
    (∀ path : String, '.' ∉ path.toList → extensionOf path = DIR) := by
  constructor
  · intro pre suf path hpath hsuf
    have hrev : path.toList.reverse = suf.reverse ++ '.' :: pre.reverse := by
      rw [hpath]
      simp
    have hfind : pyFind path.toList.reverse '.' = (suf.length : Int) := by
      rw [hrev, pyFind_append_cons (by simpa using hsuf)]
      simp
    constructor
    · intro h1 h5
      unfold extensionOf
      rw [hfind]
      rw [if_pos (by constructor <;> omega)]
      congr 1
      unfold pySliceNeg
      rw [if_neg (by omega)]
      have htn : ((suf.length : Int)).toNat = suf.length := by simp
      have hlen : path.toList.length = pre.length + 1 + suf.length := by
        rw [hpath]; simp only [List.length_append, List.length_cons]; omega
      rw [htn, hlen,
        show pre.length + 1 + suf.length - suf.length = (pre ++ ['.']).length by
          simp only [List.length_append, List.length_cons, List.length_nil]; omega,
        hpath, show pre ++ '.' :: suf = (pre ++ ['.']) ++ suf by simp,
        List.drop_left]
    · intro h5
      unfold extensionOf
      rw [hfind, if_neg (by omega)]
  · intro path hpath
    unfold extensionOf
    rw [pyFind_of_not_mem (by simpa using hpath)]
    rw [if_neg (by omega)]

/-- C10 (confirmed): when the path's last character is the separator itself,
the reversed-string `find` yields 0 and the slice `path[-0:]` denotes the
whole string, so the extension is the entire path lower-cased. -/
theorem extension_trailing_dot_whole_path (q : List Char) (path : String)
    (h : path.toList = q ++ ['.']) :
    extensionOf path = String.mk (path.toList.map Char.toLower) := by
  have hrev : path.toList.reverse = '.' :: q.reverse := by rw [h]; simp
  have hfind : pyFind path.toList.reverse '.' = (0 : Int) := by
    rw [hrev, show ('.' : Char) :: q.reverse = [] ++ '.' :: q.reverse from rfl,
      pyFind_append_cons (by simp)]
    simp
  unfold extensionOf
  rw [hfind, if_pos (by omega)]
  rfl

/-- Witness for C10 at the concrete path `"A."`. -/
theorem extension_trailing_dot_whole_path_witness :
    ("A.".toList = ['A'] ++ ['.']) ∧
      extensionOf "A." = String.mk ("A.".toList.map Char.toLower) :=
  ⟨by decide, extension_trailing_dot_whole_path ['A'] "A." (by decide)⟩

/-- Witness for the amended C2 at the concrete paths `"archive.tar.gz"`
(two characters after the last separator), `"x.abcdef"` (six characters
after it) and `"README"` (no separator). -/
theorem extension_derivation_amended_witness :
    extensionOf "archive.tar.gz" = String.mk (['g', 'z'].map Char.toLower) ∧
      extensionOf "x.abcdef" = DIR ∧ extensionOf "README" = DIR := by
  refine ⟨?_, ?_, ?_⟩
  · exact (extension_derivation_amended.1 "archive.tar".toList ['g', 'z']
      "archive.tar.gz" (by decide) (by decide)).1 (by decide) (by decide)
  · exact (extension_derivation_amended.1 ['x'] "abcdef".toList
      "x.abcdef" (by decide) (by decide)).2 (by decide)
  · exact extension_derivation_amended.2 "README" (by decide)

/-! ### Construction and duplicate paths (claim C7) -/

theorem childLookup_dictInsertChild_self (child : FileObject) :
    ∀ l, childLookup child.path (dictInsertChild child l) = some child := by
  intro l
  induction l with
  | nil => simp [dictInsertChild, childLookup]
  | cons c cs ih =>
    by_cases h : c.path = child.path
    · simp [dictInsertChild, h, childLookup]
    · simp [dictInsertChild, h, childLookup, ih]

theorem dictInsertChild_of_fresh (child : FileObject) :
    ∀ l, (∀ c ∈ l, c.path ≠ child.path) → dictInsertChild child l = l ++ [child] := by
  intro l
  induction l with
  | nil => simp [dictInsertChild]
  | cons c cs ih =>
    intro h
    simp only [dictInsertChild, if_neg (h c (by simp))]
    rw [ih fun c hc => h c (by simp [hc])]
    simp

theorem childLookup_dictInsertChild_ne (child : FileObject) (k : String)
    (hk : k ≠ child.path) :
    ∀ l, childLookup k (dictInsertChild child l) = childLookup k l := by
  have hk' : ¬(child.path = k) := fun h => hk h.symm
  intro l
  induction l with
  | nil => simp [dictInsertChild, childLookup, hk']
  | cons c cs ih =>
    by_cases h : c.path = child.path
    · have hc' : ¬(c.path = k) := by rw [h]; exact hk'
      simp [dictInsertChild, h, childLookup, hk', hc']
    · simp [dictInsertChild, h, childLookup, ih]

/-- C7 (counterexample): constructing a node whose path already exists under
the parent raises nothing — there is no `ModelError` (or any exception) in
the constructor; the dict assignment of line 38 silently replaces the
existing child, so after registering a second `"r\a"` (size 2) over the
first (size 1) the parent holds exactly the new node. -/
theorem duplicate_path_overwrites_counterexample :
    ((FileObject.mk "r" 0 "" []).register (.mk "r\\a" 1 "" []) |>.register
        (.mk "r\\a" 2 "" [])).children = [.mk "r\\a" 2 "" []] ∧
      childLookup "r\\a"
        ((FileObject.mk "r" 0 "" []).register (.mk "r\\a" 1 "" []) |>.register
          (.mk "r\\a" 2 "" [])).children ≠ some (.mk "r\\a" 1 "" []) := by
  decide

/-- C7 (amended): construction never fails.  The new node is always
registered in `parent.children` under its path; a fresh path is appended,
a duplicate path silently replaces the previously registered child in
place, and entries under every other path are untouched. -/
theorem register_replaces_or_appends (parent child : FileObject) :
    childLookup child.path (parent.register child).children = some child ∧
    ((∀ c ∈ parent.children, c.path ≠ child.path) →
      (parent.register child).children = parent.children ++ [child]) ∧
    (∀ k, k ≠ child.path →
      childLookup k (parent.register child).children =
        childLookup k parent.children) := by
  refine ⟨?_, ?_, ?_⟩
  · cases parent
    exact childLookup_dictInsertChild_self child _
  · intro h
    cases parent
    exact dictInsertChild_of_fresh child _ h
  · intro k hk
    cases parent
    exact childLookup_dictInsertChild_ne child k hk _

/-- Witness for the amended C7: registering `"r\b"` under a parent that
already holds `"r\a"` appends it; the resulting lookups are as stated. -/
theorem register_replaces_or_appends_witness :
    childLookup "r\\b"
        ((FileObject.mk "r" 0 "" [.mk "r\\a" 1 "" []]).register
          (.mk "r\\b" 2 "" [])).children = some (.mk "r\\b" 2 "" []) ∧
      ((FileObject.mk "r" 0 "" [.mk "r\\a" 1 "" []]).register
          (.mk "r\\b" 2 "" [])).children =
        [.mk "r\\a" 1 "" [], .mk "r\\b" 2 "" []] ∧
      childLookup "r\\a"
        ((FileObject.mk "r" 0 "" [.mk "r\\a" 1 "" []]).register
          (.mk "r\\b" 2 "" [])).children = some (.mk "r\\a" 1 "" []) := by
  obtain ⟨h1, h2, h3⟩ := register_replaces_or_appends
    (FileObject.mk "r" 0 "" [.mk "r\\a" 1 "" []]) (.mk "r\\b" 2 "" [])
  exact ⟨h1, h2 (by decide), by rw [h3 "r\\a" (by decide)]; decide⟩

/-! ### Aggregation (claims C1, C8) -/

theorem rollupList_eq_map : ∀ l : List FileObject,
    rollupList l = l.map FileObject.rollup := by
  intro l
  induction l with
  | nil => rfl
  | cons c cs ih => simp [rollupList, ih]

theorem rollup_mk (p : String) (sz : Nat) (lb : String) (cs : List FileObject) :
    (FileObject.mk p sz lb cs).rollup =
      .mk p (sz + ((rollupList cs).map FileObject.size).sum)
        (p ++ " | " ++
          toString ((sz + ((rollupList cs).map FileObject.size).sum) / 1024 ^ 2)
          ++ " MB")
        (rollupList cs) := by
  rfl

theorem size_le_rollup_size (t : FileObject) : t.size ≤ t.rollup.size := by
  cases t with
  | mk p sz lb cs => simp [rollup_mk, FileObject.size]

theorem mem_subtreesList {x : FileObject} :
    ∀ {l : List FileObject}, x ∈ subtreesList l ↔ ∃ c ∈ l, x ∈ c.subtrees := by
  intro l
  induction l with
  | nil => simp [subtreesList]
  | cons c cs ih => simp [subtreesList, ih]

theorem mem_subtrees_self (t : FileObject) : t ∈ t.subtrees := by
  cases t with
  | mk p sz lb cs => simp [FileObject.subtrees]

theorem subtrees_trans : ∀ t u s : FileObject,
    u ∈ t.subtrees → s ∈ u.subtrees → s ∈ t.subtrees := by
  have main : ∀ t : FileObject, ∀ u s : FileObject,
      u ∈ t.subtrees → s ∈ u.subtrees → s ∈ t.subtrees := by
    intro t
    induction t using FileObject.strongInd with
    | h p sz lb cs ih =>
      intro u s hu hs
      simp only [FileObject.subtrees, List.mem_cons] at hu ⊢
      rcases hu with rfl | hu
      · simpa [FileObject.subtrees] using hs
      · obtain ⟨c, hc, hu⟩ := mem_subtreesList.mp hu
        exact Or.inr (mem_subtreesList.mpr ⟨c, hc, ih c hc u s hu hs⟩)
  exact main

theorem child_mem_subtrees {c t : FileObject} (h : c ∈ t.children) :
    c ∈ t.subtrees := by
  cases t with
  | mk p sz lb cs =>
    simp only [FileObject.children] at h
    simp only [FileObject.subtrees, List.mem_cons]
    exact Or.inr (mem_subtreesList.mpr ⟨c, h, mem_subtrees_self c⟩)

theorem internalZero_mono {t u : FileObject} (h : internalZero t = true)
    (hu : u ∈ t.subtrees) : internalZero u = true := by
  unfold internalZero at h ⊢
  rw [List.all_eq_true] at h ⊢
  exact fun s hs => h s (subtrees_trans t u s hu hs)

theorem internalZero_child {t c : FileObject} (h : internalZero t = true)
    (hc : c ∈ t.children) : internalZero c = true :=
  internalZero_mono h (child_mem_subtrees hc)

theorem internalZero_self_size {p lb : String} {sz : Nat} {cs : List FileObject}
    (h : internalZero (.mk p sz lb cs) = true) (hne : cs ≠ []) : sz = 0 := by
  unfold internalZero at h
  rw [List.all_eq_true] at h
  have := h _ (mem_subtrees_self _)
  simp only [FileObject.children, FileObject.size, List.isEmpty_eq_true,
    Bool.or_eq_true, beq_iff_eq] at this
  tauto

theorem sum_rollup_eq_leafSizesList :
    ∀ cs : List FileObject, (∀ c ∈ cs, c.rollup.size = c.leafSizes) →
      ((rollupList cs).map FileObject.size).sum = leafSizesList cs := by
  intro cs
  induction cs with
  | nil => simp [rollupList, leafSizesList]
  | cons c cs ih =>
    intro h
    simp only [rollupList, List.map_cons, List.sum_cons, leafSizesList]
    rw [h c (by simp), ih fun c hc => h c (by simp [hc])]

theorem rollup_size_leafSizes : ∀ t : FileObject, internalZero t = true →
    t.rollup.size = t.leafSizes := by
  intro t
  induction t using FileObject.strongInd with
  | h p sz lb cs ih =>
    intro h0
    cases cs with
    | nil => simp [rollup_mk, rollupList, FileObject.size, FileObject.leafSizes]
    | cons c cs' =>
      have hsz : sz = 0 := internalZero_self_size h0 (by simp)
      have hsum := sum_rollup_eq_leafSizesList (c :: cs')
        fun d hd => ih d hd
          (internalZero_child h0 (by simpa [FileObject.children] using hd))
      simp only [rollup_mk, FileObject.size, FileObject.leafSizes, hsz,
        Nat.zero_add]
      rw [hsum]

theorem leafSizesList_rollupList :
    ∀ cs : List FileObject, (∀ c ∈ cs, c.rollup.leafSizes = c.leafSizes) →
      leafSizesList (rollupList cs) = leafSizesList cs := by
  intro cs
  induction cs with
  | nil => intro _; rfl
  | cons c cs ih =>
    intro h
    simp only [rollupList, leafSizesList]
    rw [h c (by simp), ih fun c hc => h c (by simp [hc])]

theorem leafSizes_rollup : ∀ t : FileObject, t.rollup.leafSizes = t.leafSizes := by
  intro t
  induction t using FileObject.strongInd with
  | h p sz lb cs ih =>
    cases cs with
    | nil => simp [rollup_mk, rollupList, FileObject.leafSizes]
    | cons c cs' =>
      simp only [rollup_mk, rollupList, FileObject.leafSizes]
      have := leafSizesList_rollupList (c :: cs') fun d hd => ih d hd
      simpa [rollupList] using this

theorem subtreesList_rollupList :
    ∀ cs : List FileObject, (∀ c ∈ cs, c.rollup.subtrees = c.subtrees.map FileObject.rollup) →
      subtreesList (rollupList cs) = (subtreesList cs).map FileObject.rollup := by
  intro cs
  induction cs with
  | nil => intro _; rfl
  | cons c cs ih =>
    intro h
    simp only [rollupList, subtreesList, List.map_append]
    rw [h c (by simp), ih fun c hc => h c (by simp [hc])]

theorem subtrees_rollup : ∀ t : FileObject,
    t.rollup.subtrees = t.subtrees.map FileObject.rollup := by
  intro t
  induction t using FileObject.strongInd with
  | h p sz lb cs ih =>
    simp only [rollup_mk, FileObject.subtrees, List.map_cons]
    rw [subtreesList_rollupList cs fun c hc => ih c hc]

/-- C1 (confirmed): on a tree whose internal nodes were created with size 0,
a single `rollup()` of the root leaves every node of the resulting tree with
`size` equal to the sum of the sizes of the leaves of its subtree; for every
internal node that size moreover equals the sum of its direct children's
final sizes (its own initial contribution being 0). -/
theorem rollup_sizes_correct (t : FileObject) (h : internalZero t = true) :
    ∀ s ∈ t.rollup.subtrees, s.size = s.leafSizes ∧
      (s.children ≠ [] → s.size = (s.children.map FileObject.size).sum) := by
  intro s hs
  rw [subtrees_rollup] at hs
  obtain ⟨u, hu, rfl⟩ := List.mem_map.mp hs
  have hz : internalZero u = true := internalZero_mono h hu
  refine ⟨?_, ?_⟩
  · rw [rollup_size_leafSizes u hz, ← leafSizes_rollup u]
  · intro hne
    cases u with
    | mk p sz lb cs =>
      cases cs with
      | nil => simp [rollup_mk, rollupList, FileObject.children] at hne
      | cons c cs' =>
        have hsz : sz = 0 := internalZero_self_size hz (by simp)
        simp [rollup_mk, FileObject.size, FileObject.children, hsz]

/-- Witness for C1 at a concrete three-level tree. -/
theorem rollup_sizes_correct_witness :
    internalZero exTree1 = true ∧
      exTree1.rollup ∈ exTree1.rollup.subtrees ∧
      exTree1.rollup.size = exTree1.rollup.leafSizes :=
  ⟨by decide, by decide,
    (rollup_sizes_correct exTree1 (by decide) exTree1.rollup (by decide)).1⟩

/-- C8 (counterexample): nothing guards a second `rollup()`; it re-adds the
children's sizes into the already aggregated parent.  A root of initial
size 0 with one leaf of size 5 reports 5 after one call and 10 after two. -/
theorem rollup_twice_doublecounts_counterexample :
    (FileObject.mk "r" 0 "" [.mk "r\\a" 5 "" []]).rollup.size = 5 ∧
      (FileObject.mk "r" 0 "" [.mk "r\\a" 5 "" []]).rollup.rollup.size = 10 := by
  decide

/-- C8 (amended): the implementation has no idempotency guard and does not
reset the accumulated size: a second `rollup()` adds the (re-aggregated)
children's sizes on top of the already aggregated total, so whenever some
child aggregated to a positive size the parent's size strictly grows. -/
theorem rollup_second_call_adds_again (t : FileObject) :
    t.rollup.rollup.size =
      t.rollup.size + ((rollupList t.rollup.children).map FileObject.size).sum ∧
    ((∃ c ∈ t.rollup.children, 0 < c.size) →
      t.rollup.size < t.rollup.rollup.size) := by
  constructor
  · cases t with
    | mk p sz lb cs => simp [rollup_mk, FileObject.size, FileObject.children]
  · rintro ⟨c, hc, hpos⟩
    cases t with
    | mk p sz lb cs =>
      simp only [rollup_mk, FileObject.children] at hc
      have hc' : c.rollup ∈ rollupList (rollupList cs) := by
        rw [rollupList_eq_map]
        exact List.mem_map.mpr ⟨c, hc, rfl⟩
      have hpos' : 0 < c.rollup.size := lt_of_lt_of_le hpos (size_le_rollup_size c)
      have hsum : 0 < ((rollupList (rollupList cs)).map FileObject.size).sum := by
        by_contra hz
        push_neg at hz
        interval_cases h : ((rollupList (rollupList cs)).map FileObject.size).sum
        rw [List.sum_eq_zero_iff] at h
        exact absurd (h _ (List.mem_map.mpr ⟨c.rollup, hc', rfl⟩)) (by omega)
      simp only [rollup_mk, FileObject.size]
      omega

/-- Witness for the amended C8 at the size-5 single-leaf tree. -/
theorem rollup_second_call_adds_again_witness :
    (∃ c ∈ exTree2.rollup.children, 0 < c.size) ∧
      exTree2.rollup.size < exTree2.rollup.rollup.size :=
  ⟨by decide, (rollup_second_call_adds_again exTree2).2 (by decide)⟩

/-! ### Selection resolution (claim C5) -/

theorem maxByPathLen_mem (e : FileObject × Nat) (rest : List (FileObject × Nat)) :
    maxByPathLen e rest ∈ e :: rest := by
  induction rest generalizing e with
  | nil => simp [maxByPathLen]
  | cons x rest ih =>
    have step : maxByPathLen e (x :: rest) =
        maxByPathLen (if e.1.path.length < x.1.path.length then x else e) rest := by
      simp [maxByPathLen]
    rw [step]
    have := ih (if e.1.path.length < x.1.path.length then x else e)
    rcases List.mem_cons.mp this with h | h
    · rw [h]
      split <;> simp
    · simp [h]

theorem maxByPathLen_ge (e : FileObject × Nat) (rest : List (FileObject × Nat)) :
    ∀ q ∈ e :: rest, q.1.path.length ≤ (maxByPathLen e rest).1.path.length := by
  induction rest generalizing e with
  | nil =>
    intro q hq
    simp only [List.mem_singleton] at hq
    simp [hq, maxByPathLen]
  | cons x rest ih =>
    intro q hq
    have step : maxByPathLen e (x :: rest) =
        maxByPathLen (if e.1.path.length < x.1.path.length then x else e) rest := by
      simp [maxByPathLen]
    rw [step]
    set f := if e.1.path.length < x.1.path.length then x else e with hf
    have hef : e.1.path.length ≤ f.1.path.length := by
      rw [hf]; split <;> omega
    have hxf : x.1.path.length ≤ f.1.path.length := by
      rw [hf]; split <;> omega
    have hfhead := ih f f (by simp)
    rcases List.mem_cons.mp hq with rfl | hq
    · omega
    rcases List.mem_cons.mp hq with rfl | hq
    · omega
    · exact ih f q (by simp [hq])

/-- C5 (confirmed): if `click_list` is empty, `ontime` is a no-op.
Otherwise it resolves to the queued entry of maximal `path` length (Python
`max` keeps the first maximal entry, so some entry of maximal length is
chosen whatever the arrival order), sets the title to that node's `label`,
and leaves the queue empty. -/
theorem ontime_resolves_longest_path (s : ViewState) :
    (s.clickList = [] → ontime s = s) ∧
    (∀ e rest, s.clickList = e :: rest →
      (ontime s).clickList = [] ∧
      (ontime s).title = (maxByPathLen e rest).1.label ∧
      maxByPathLen e rest ∈ s.clickList ∧
      ∀ q ∈ s.clickList, q.1.path.length ≤ (maxByPathLen e rest).1.path.length) := by
  constructor
  · intro h
    simp [ontime, h]
  · intro e rest h
    refine ⟨by simp [ontime, h], by simp [ontime, h], ?_, ?_⟩
    · rw [h]; exact maxByPathLen_mem e rest
    · rw [h]; exact maxByPathLen_ge e rest

/-- Witness for C5: queued picks with path lengths 5, 12 and 9 (in that
arrival order) resolve to the length-12 entry, whose label becomes the
title, and the queue is cleared. -/
theorem ontime_resolves_longest_path_witness :
    (ontime ⟨[(.mk "abcde" 0 "L5" [], 1), (.mk "abcdefghijkl" 0 "L12" [], 3),
        (.mk "abcdefghi" 0 "L9" [], 1)], "t"⟩).clickList = [] ∧
      (ontime ⟨[(.mk "abcde" 0 "L5" [], 1), (.mk "abcdefghijkl" 0 "L12" [], 3),
        (.mk "abcdefghi" 0 "L9" [], 1)], "t"⟩).title = "L12" := by
  have h := (ontime_resolves_longest_path ⟨[(.mk "abcde" 0 "L5" [], 1),
    (.mk "abcdefghijkl" 0 "L12" [], 3), (.mk "abcdefghi" 0 "L9" [], 1)], "t"⟩).2
    (.mk "abcde" 0 "L5" [], 1)
    [(.mk "abcdefghijkl" 0 "L12" [], 3), (.mk "abcdefghi" 0 "L9" [], 1)] rfl
  exact ⟨h.1, by rw [h.2.1]; decide⟩

/-! ### Color assignment (claim C6) -/

theorem lookup_dictSet_self (k : String) (v : Color) :
    ∀ l, (dictSet k v l).lookup k = some v := by
  intro l
  induction l with
  | nil => simp [dictSet]
  | cons kv rest ih =>
    obtain ⟨k', v'⟩ := kv
    by_cases h : k' = k
    · simp [dictSet, h, List.lookup_cons]
    · simp only [dictSet, if_neg h, List.lookup_cons]
      rw [show (k == k') = false by simpa using fun hh => h hh.symm]
      exact ih

theorem lookup_dictSet_ne (k : String) (v : Color) (k' : String) (hk : k' ≠ k) :
    ∀ l, (dictSet k v l).lookup k' = l.lookup k' := by
  intro l
  induction l with
  | nil =>
    simp only [dictSet, List.lookup_cons, List.lookup_nil]
    rw [show (k' == k) = false by simpa using hk]
  | cons kv rest ih =>
    obtain ⟨k1, v1⟩ := kv
    by_cases h : k1 = k
    · simp only [dictSet, if_pos h, List.lookup_cons]
      rw [show (k' == k) = false by simpa using hk,
        show (k' == k1) = false by simp [h, hk]]
    · simp only [dictSet, if_neg h, List.lookup_cons]
      cases hh : k' == k1 <;> simp [ih]

theorem get_color_extensionCount (rnd : Nat → Nat) (ext : String) (s : DrawState) :
    (get_color rnd ext s).2.extensionCount = s.extensionCount ++ [ext] := by
  unfold get_color
  split <;> rfl

theorem get_color_legend (rnd : Nat → Nat) (ext : String) (s : DrawState) :
    (get_color rnd ext s).2.legend = s.legend := by
  unfold get_color
  split <;> rfl

theorem get_color_patchAssoc (rnd : Nat → Nat) (ext : String) (s : DrawState) :
    (get_color rnd ext s).2.patchAssoc = s.patchAssoc := by
  unfold get_color
  split <;> rfl

theorem get_color_cached (rnd : Nat → Nat) (ext : String) (s : DrawState)
    (c : Color) (h : s.colors.lookup ext = some c) :
    (get_color rnd ext s).1 = c ∧ (get_color rnd ext s).2.colors = s.colors := by
  unfold get_color
  simp [h]

theorem get_color_fresh (rnd : Nat → Nat) (ext : String) (s : DrawState)
    (h : s.colors.lookup ext = none) :
    (get_color rnd ext s).1 = (get_random_color rnd s.ridx).1 ∧
      (get_color rnd ext s).2.colors =
        dictSet ext (get_random_color rnd s.ridx).1 s.colors := by
  unfold get_color
  simp [h, lookup_dictSet_self]

theorem get_color_lookup_self (rnd : Nat → Nat) (ext : String) (s : DrawState) :
    (get_color rnd ext s).2.colors.lookup ext = some (get_color rnd ext s).1 := by
  cases h : s.colors.lookup ext with
  | some c =>
    obtain ⟨h1, h2⟩ := get_color_cached rnd ext s c h
    rw [h1, h2, h]
  | none =>
    obtain ⟨h1, h2⟩ := get_color_fresh rnd ext s h
    rw [h1, h2, lookup_dictSet_self]

theorem get_color_preserves_lookup (rnd : Nat → Nat) (ext : String)
    (s : DrawState) (k : String) (c : Color) (h : s.colors.lookup k = some c) :
    (get_color rnd ext s).2.colors.lookup k = some c := by
  cases he : s.colors.lookup ext with
  | some c' => rw [(get_color_cached rnd ext s c' he).2, h]
  | none =>
    rw [(get_color_fresh rnd ext s he).2]
    have hk : k ≠ ext := by rintro rfl; rw [h] at he; exact Option.noConfusion he
    rw [lookup_dictSet_ne ext _ k hk, h]

theorem drawNode_patchAssoc (rnd : Nat → Nat) (file : FileObject) (rect : Rect)
    (s : DrawState) :
    (drawNode rnd file rect s).patchAssoc = s.patchAssoc ++ [(rect, file)] := by
  by_cases hc : file.extension ∈ s.legend <;>
    simp [drawNode, get_color_legend, get_color_patchAssoc, hc]

theorem drawNode_extensionCount (rnd : Nat → Nat) (file : FileObject)
    (rect : Rect) (s : DrawState) :
    (drawNode rnd file rect s).extensionCount =
      s.extensionCount ++ [file.extension] := by
  by_cases hc : file.extension ∈ s.legend <;>
    simp [drawNode, get_color_legend, get_color_extensionCount, hc]

theorem drawNode_legend (rnd : Nat → Nat) (file : FileObject) (rect : Rect)
    (s : DrawState) :
    (drawNode rnd file rect s).legend =
      if file.extension ∈ s.legend then s.legend
      else s.legend ++ [file.extension] := by
  by_cases hc : file.extension ∈ s.legend <;>
    simp [drawNode, get_color_legend, hc]

theorem drawNode_colors (rnd : Nat → Nat) (file : FileObject) (rect : Rect)
    (s : DrawState) :
    (drawNode rnd file rect s).colors =
      if file.extension ∈ s.legend then (get_color rnd file.extension s).2.colors
      else dictSet file.extension (get_color rnd file.extension s).1
        (get_color rnd file.extension s).2.colors := by
  by_cases hc : file.extension ∈ s.legend <;>
    simp [drawNode, get_color_legend, hc]

theorem drawNode_preserves_lookup (rnd : Nat → Nat) (file : FileObject)
    (rect : Rect) (s : DrawState) (k : String) (c : Color)
    (h : s.colors.lookup k = some c) :
    (drawNode rnd file rect s).colors.lookup k = some c := by
  have hpres := get_color_preserves_lookup rnd file.extension s k c h
  rw [drawNode_colors]
  by_cases hc : file.extension ∈ s.legend
  · rw [if_pos hc]
    exact hpres
  · rw [if_neg hc]
    by_cases hk : k = file.extension
    · subst hk
      have hself := get_color_lookup_self rnd file.extension s
      rw [hself] at hpres
      rw [lookup_dictSet_self]
      exact hpres
    · rw [lookup_dictSet_ne _ _ k hk]
      exact hpres

theorem foldl_inv {α : Type*} {σ : Type*} (Inv : σ → Prop) (l : List α)
    (g : σ → α → σ) (h : ∀ x ∈ l, ∀ acc, Inv acc → Inv (g acc x)) :
    ∀ acc, Inv acc → Inv (l.foldl g acc) := by
  induction l with
  | nil => exact fun acc ha => ha
  | cons x xs ih =>
    intro acc ha
    exact ih (fun y hy => h y (by simp [hy])) (g acc x) (h x (by simp) acc ha)

theorem mem_eligibleChildren {minsize : Nat} {file c : FileObject} :
    c ∈ eligibleChildren minsize file ↔ c ∈ file.children ∧ minsize ≤ c.size := by
  simp [eligibleChildren, List.mem_mergeSort, List.mem_filter]

/-- The recursion of `draw` in foldl form: the per-node update followed by a
left fold of the recursive calls over the eligible children paired with the
rectangles `squarify` returned. -/
theorem draw_eq (rnd : Nat → Nat) (sq : List ℚ → Rect → List Rect)
    (minsize : Nat) (file : FileObject) (rect : Rect) (s : DrawState) :
    draw rnd sq minsize file rect s =
      ((eligibleChildren minsize file).zip
          (sq (scaledSizes minsize file rect) rect)).foldl
        (fun acc p => draw rnd sq minsize p.1 p.2 acc)
        (drawNode rnd file rect s) := by
  rw [draw]
  by_cases h : (eligibleChildren minsize file).isEmpty
  · rw [if_pos h]
    rw [List.isEmpty_iff] at h
    rw [h]
    simp
  · rw [if_neg h]
    exact List.foldl_attach
      ((eligibleChildren minsize file).zip (sq (scaledSizes minsize file rect) rect))
      (fun acc p => draw rnd sq minsize p.1 p.2 acc) (drawNode rnd file rect s)

theorem draw_preserves_lookup (rnd : Nat → Nat) (sq : List ℚ → Rect → List Rect)
    (minsize : Nat) :
    ∀ file : FileObject, ∀ rect s k c, s.colors.lookup k = some c →
      (draw rnd sq minsize file rect s).colors.lookup k = some c := by
  intro file
  induction file using FileObject.strongInd with
  | h p sz lb cs ih =>
    intro rect s k c h
    rw [draw_eq]
    refine foldl_inv (fun st : DrawState => st.colors.lookup k = some c) _ _ ?_ _
      (drawNode_preserves_lookup rnd _ rect s k c h)
    intro x hx acc hacc
    have hmem : x.1 ∈ (FileObject.mk p sz lb cs).children :=
      (mem_eligibleChildren.mp (List.of_mem_zip hx).1).1
    exact ih x.1 hmem x.2 acc k c hacc

/-- C6 (confirmed): the extension→color mapping is the shared `COLORS` dict,
pre-seeded with the directory sentinel mapped to the fixed gray `(.2,)*3`; a
cached key always yields its stored color and leaves the mapping untouched,
an unseen key is assigned the freshly generated random color, and no call —
`get_color` or a whole recursive `draw` pass — ever removes or overwrites an
existing entry. -/
theorem color_map_persistent (rnd : Nat → Nat) (extension : String)
    (s : DrawState) :
    COLORS.lookup DIR = some (1/5, 1/5, 1/5) ∧
    (∀ c, s.colors.lookup extension = some c →
      (get_color rnd extension s).1 = c ∧
        (get_color rnd extension s).2.colors = s.colors) ∧
    (s.colors.lookup extension = none →
      (get_color rnd extension s).1 = (get_random_color rnd s.ridx).1 ∧
        (get_color rnd extension s).2.colors.lookup extension =
          some (get_random_color rnd s.ridx).1) ∧
    (∀ k c, s.colors.lookup k = some c →
      (get_color rnd extension s).2.colors.lookup k = some c) ∧
    (∀ sq minsize file rect k c, s.colors.lookup k = some c →
      (draw rnd sq minsize file rect s).colors.lookup k = some c) := by
  refine ⟨by simp [COLORS, List.lookup_cons], ?_, ?_, ?_, ?_⟩
  · exact fun c h => get_color_cached rnd extension s c h
  · intro h
    obtain ⟨h1, h2⟩ := get_color_fresh rnd extension s h
    exact ⟨h1, by rw [h2, lookup_dictSet_self]⟩
  · exact fun k c h => get_color_preserves_lookup rnd extension s k c h
  · exact fun sq minsize file rect k c h =>
      draw_preserves_lookup rnd sq minsize file rect s k c h

/-- Witness for C6: from the freshly seeded `COLORS` state, looking up the
directory sentinel is cached (returns the gray), a first `"py"` lookup
installs the generated color, and a subsequent `draw` pass over a concrete
tree still maps the sentinel to the gray. -/
theorem color_map_persistent_witness :
    (get_color (fun i => i) DIR (DirectoryMap.initState COLORS 0)).1 =
        (1/5, 1/5, 1/5) ∧
      ((DirectoryMap.initState COLORS 0).colors.lookup "py" = none ∧
        (get_color (fun i => i) "py" (DirectoryMap.initState COLORS 0)).2.colors.lookup
          "py" = some (get_random_color (fun i => i) 0).1) ∧
      (draw (fun i => i) (fun l _ => l.map fun _ => ⟨0, 0, 1, 1⟩) 0 exTree2
          ⟨0, 0, 1, 1⟩ (DirectoryMap.initState COLORS 0)).colors.lookup DIR =
        some (1/5, 1/5, 1/5) := by
  refine ⟨?_, ⟨by decide, ?_⟩, ?_⟩
  · exact ((color_map_persistent (fun i => i) DIR
      (DirectoryMap.initState COLORS 0)).2.1 (1/5, 1/5, 1/5)
      (by simp [DirectoryMap.initState, COLORS, List.lookup_cons])).1
  · exact ((color_map_persistent (fun i => i) "py"
      (DirectoryMap.initState COLORS 0)).2.2.1 (by decide)).2
  · exact (color_map_persistent (fun i => i) DIR
      (DirectoryMap.initState COLORS 0)).2.2.2.2
      (fun l _ => l.map fun _ => ⟨0, 0, 1, 1⟩) 0 exTree2 ⟨0, 0, 1, 1⟩ DIR
      (1/5, 1/5, 1/5) (by simp [DirectoryMap.initState, COLORS, List.lookup_cons])

/-! ### Pruning and area scaling (claims C3, C4) -/

theorem foldl_establish {α : Type*} {σ : Type*} (P : σ → Prop) (l : List α)
    (g : σ → α → σ) (x : α) (hx : x ∈ l) (hest : ∀ acc, P (g acc x))
    (hpres : ∀ y ∈ l, ∀ acc, P acc → P (g acc y)) :
    ∀ acc, P (l.foldl g acc) := by
  induction l with
  | nil => cases hx
  | cons y ys ih =>
    intro acc
    rcases List.mem_cons.mp hx with rfl | hx'
    · exact foldl_inv P ys g (fun z hz => hpres z (by simp [hz])) _ (hest acc)
    · exact ih hx' (fun z hz => hpres z (by simp [hz])) (g acc y)

theorem child_ne_self {c t : FileObject} (h : c ∈ t.children) : c ≠ t := by
  cases t with
  | mk p sz lb cs =>
    simp only [FileObject.children] at h
    intro heq
    have h1 := List.sizeOf_lt_of_mem h
    have h2 : sizeOf (FileObject.mk p sz lb cs) =
        1 + sizeOf p + sizeOf sz + sizeOf lb + sizeOf cs := by
      simp
    rw [heq] at h1
    omega

theorem draw_patchAssoc_extends (rnd : Nat → Nat)
    (sq : List ℚ → Rect → List Rect) (minsize : Nat) :
    ∀ file : FileObject, ∀ rect s, ∃ tail,
      (draw rnd sq minsize file rect s).patchAssoc =
        s.patchAssoc ++ (rect, file) :: tail := by
  intro file
  induction file using FileObject.strongInd with
  | h p sz lb cs ih =>
    intro rect s
    rw [draw_eq]
    refine foldl_inv
      (fun st : DrawState => ∃ tail,
        st.patchAssoc = s.patchAssoc ++ (rect, FileObject.mk p sz lb cs) :: tail)
      _ _ ?_ _ ⟨[], by rw [drawNode_patchAssoc]⟩
    intro x hx acc hacc
    obtain ⟨tail, htail⟩ := hacc
    have hmem : x.1 ∈ (FileObject.mk p sz lb cs).children :=
      (mem_eligibleChildren.mp (List.of_mem_zip hx).1).1
    obtain ⟨tail', htail'⟩ := ih x.1 hmem x.2 acc
    exact ⟨tail ++ (x.2, x.1) :: tail', by rw [htail', htail]; simp⟩

theorem draw_patch_mono (rnd : Nat → Nat) (sq : List ℚ → Rect → List Rect)
    (minsize : Nat) (file : FileObject) (rect : Rect) (s : DrawState)
    {n : FileObject} (h : n ∈ s.patchAssoc.map Prod.snd) :
    n ∈ (draw rnd sq minsize file rect s).patchAssoc.map Prod.snd := by
  obtain ⟨tail, htail⟩ := draw_patchAssoc_extends rnd sq minsize file rect s
  rw [htail]
  simp only [List.map_append, List.mem_append]
  exact Or.inl h

theorem draw_patch_nodes (rnd : Nat → Nat) (sq : List ℚ → Rect → List Rect)
    (minsize : Nat) :
    ∀ file : FileObject, ∀ rect s n,
      n ∈ (draw rnd sq minsize file rect s).patchAssoc.map Prod.snd →
      n ∈ s.patchAssoc.map Prod.snd ∨ n = file ∨ minsize ≤ n.size := by
  intro file
  induction file using FileObject.strongInd with
  | h p sz lb cs ih =>
    intro rect s n
    rw [draw_eq]
    refine foldl_inv
      (fun st : DrawState => n ∈ st.patchAssoc.map Prod.snd →
        n ∈ s.patchAssoc.map Prod.snd ∨ n = FileObject.mk p sz lb cs ∨
          minsize ≤ n.size)
      _ _ ?_ _ ?_
    · intro x hx acc hacc hmem
      have hx1 := mem_eligibleChildren.mp (List.of_mem_zip hx).1
      rcases ih x.1 hx1.1 x.2 acc n hmem with h' | h' | h'
      · exact hacc h'
      · exact Or.inr (Or.inr (h' ▸ hx1.2))
      · exact Or.inr (Or.inr h')
    · intro hmem
      rw [drawNode_patchAssoc] at hmem
      simp only [List.map_append, List.mem_append, List.map_cons, List.map_nil,
        List.mem_singleton] at hmem
      rcases hmem with h' | h'
      · exact Or.inl h'
      · exact Or.inr (Or.inl h')

theorem draw_child_in_patch (rnd : Nat → Nat) (sq : List ℚ → Rect → List Rect)
    (minsize : Nat) (hsq : ∀ l r, (sq l r).length = l.length)
    (file : FileObject) (rect : Rect) (s : DrawState) (c : FileObject)
    (hc : c ∈ file.children) (hsz : minsize ≤ c.size) :
    c ∈ (draw rnd sq minsize file rect s).patchAssoc.map Prod.snd := by
  have hce : c ∈ eligibleChildren minsize file := mem_eligibleChildren.mpr ⟨hc, hsz⟩
  have hlen : (sq (scaledSizes minsize file rect) rect).length =
      (eligibleChildren minsize file).length := by
    rw [hsq, scaledSizes, List.length_map]
  obtain ⟨i, hi, hgi⟩ := List.mem_iff_getElem.mp hce
  have hzip : (c, (sq (scaledSizes minsize file rect) rect)[i]) ∈
      (eligibleChildren minsize file).zip
        (sq (scaledSizes minsize file rect) rect) := by
    rw [← hgi]
    exact List.mem_iff_getElem.mpr
      ⟨i, by rw [List.length_zip]; omega, List.getElem_zip⟩
  rw [draw_eq]
  refine foldl_establish
    (fun st : DrawState => c ∈ st.patchAssoc.map Prod.snd) _ _ _ hzip ?_ ?_ _
  · intro acc
    obtain ⟨tail, htail⟩ := draw_patchAssoc_extends rnd sq minsize c
      ((sq (scaledSizes minsize file rect) rect)[i]) acc
    rw [htail]
    simp
  · intro y _ acc hacc
    exact draw_patch_mono rnd sq minsize y.1 y.2 acc hacc

/-- C3 (confirmed): with the threshold `minsize = root.size // resolution`
fixed once at the top-level call and passed down unchanged, a direct child
of any node reached by the layout appears in the rectangle→node association
table iff its size meets the threshold, and every node other than the root
that appears in the table at any depth meets the threshold (children below
it are pruned together with their whole subtrees). -/
theorem prune_threshold_iff (rnd : Nat → Nat) (sq : List ℚ → Rect → List Rect)
    (root : FileObject) (resolution : Nat) (rect : Rect)
    (colors0 : List (String × Color)) (ridx0 : Nat)
    (hsq : ∀ l r, (sq l r).length = l.length) :
    (∀ c ∈ root.children,
      c ∈ (draw rnd sq (DirectoryMap.minsize root resolution) root rect
          (DirectoryMap.initState colors0 ridx0)).patchAssoc.map Prod.snd ↔
        DirectoryMap.minsize root resolution ≤ c.size) ∧
    (∀ n ∈ (draw rnd sq (DirectoryMap.minsize root resolution) root rect
        (DirectoryMap.initState colors0 ridx0)).patchAssoc.map Prod.snd,
      n = root ∨ DirectoryMap.minsize root resolution ≤ n.size) ∧
    (∀ (file : FileObject) (rect' : Rect) (s : DrawState), ∀ c ∈ file.children,
      DirectoryMap.minsize root resolution ≤ c.size →
      c ∈ (draw rnd sq (DirectoryMap.minsize root resolution) file rect'
          s).patchAssoc.map Prod.snd) := by
  have hbound := draw_patch_nodes rnd sq (DirectoryMap.minsize root resolution)
    root rect (DirectoryMap.initState colors0 ridx0)
  refine ⟨?_, ?_, ?_⟩
  · intro c hc
    constructor
    · intro hmem
      rcases hbound c hmem with h' | h' | h'
      · simp [DirectoryMap.initState] at h'
      · exact absurd h' (child_ne_self hc)
      · exact h'
    · intro hsz
      exact draw_child_in_patch rnd sq _ hsq root rect _ c hc hsz
  · intro n hn
    rcases hbound n hn with h' | h' | h'
    · simp [DirectoryMap.initState] at h'
    · exact Or.inl h'
    · exact Or.inr h'
  · intro file rect' s c hc hsz
    exact draw_child_in_patch rnd sq _ hsq file rect' s c hc hsz

/-- Witness for C3: root of size 6 with children of sizes 5 and 1,
resolution 2, so the threshold is 3: the size-5 child is in the association
table, the size-1 child is not. -/
theorem prune_threshold_iff_witness :
    (FileObject.mk "r\\a" 5 "" [] ∈
      (draw (fun i => i) (fun l _ => l.map fun _ => ⟨0, 0, 1, 1⟩)
          (DirectoryMap.minsize exTree3 2) exTree3 ⟨0, 0, 1, 1⟩
          (DirectoryMap.initState COLORS 0)).patchAssoc.map Prod.snd) ∧
    (FileObject.mk "r\\b" 1 "" [] ∉
      (draw (fun i => i) (fun l _ => l.map fun _ => ⟨0, 0, 1, 1⟩)
          (DirectoryMap.minsize exTree3 2) exTree3 ⟨0, 0, 1, 1⟩
          (DirectoryMap.initState COLORS 0)).patchAssoc.map Prod.snd) := by
  have h := prune_threshold_iff (fun i => i)
    (fun l _ => l.map fun _ => ⟨0, 0, 1, 1⟩) exTree3 2 ⟨0, 0, 1, 1⟩ COLORS 0
    (fun l r => by simp)
  constructor
  · exact (h.1 (.mk "r\\a" 5 "" []) (by decide)).mpr (by decide)
  · intro hmem
    have := (h.1 (.mk "r\\b" 1 "" []) (by decide)).mp hmem
    revert this
    decide

theorem sum_map_div_mul (fs A : ℚ) :
    ∀ l : List FileObject,
      (l.map fun c => (c.size : ℚ) / fs * A).sum =
        ((l.map FileObject.size).sum : ℚ) / fs * A := by
  intro l
  induction l with
  | nil => simp
  | cons c cs ih =>
    simp only [List.map_cons, List.sum_cons, ih]
    push_cast
    ring

theorem sum_eligible_le {minsize : Nat} {file : FileObject} :
    ((eligibleChildren minsize file).map FileObject.size).sum ≤
      (file.children.map FileObject.size).sum := by
  have hperm : (eligibleChildren minsize file).Perm
      (file.children.filter fun c => minsize ≤ c.size) :=
    List.mergeSort_perm _ _
  have h1 : ((eligibleChildren minsize file).map FileObject.size).sum =
      (((file.children.filter fun c => minsize ≤ c.size).map
        FileObject.size)).sum :=
    (hperm.map FileObject.size).sum_eq
  rw [h1]
  exact List.Sublist.sum_le_sum
    ((List.filter_sublist _).map FileObject.size) (fun a _ => Nat.zero_le a)

/-- C4 (confirmed): at every layout step the target area handed to
`squarify` for the `i`-th eligible child is `child.size / node.size *
area(rect)` — the fraction of the node's FULL aggregated size, not of the
eligible subset's total.  Consequently the areas sum to
`(Σ eligible sizes) / node.size * area(rect)`, which stays at most the
rectangle's area when the node is properly aggregated, and falls strictly
short of it when pruning removed positive mass. -/
theorem scaled_area_full_parent_fraction (minsize : Nat) (file : FileObject)
    (rect : Rect) (hsz : 0 < file.size) :
    (∀ (i : Nat) (h1 : i < (scaledSizes minsize file rect).length)
        (h2 : i < (eligibleChildren minsize file).length),
      (scaledSizes minsize file rect)[i] =
        ((eligibleChildren minsize file)[i].size : ℚ) / (file.size : ℚ) *
          (rect.dx * rect.dy)) ∧
    (scaledSizes minsize file rect).sum =
      (((eligibleChildren minsize file).map FileObject.size).sum : ℚ) /
        (file.size : ℚ) * (rect.dx * rect.dy) ∧
    ((file.children.map FileObject.size).sum ≤ file.size →
      0 ≤ rect.dx * rect.dy →
      (scaledSizes minsize file rect).sum ≤ rect.dx * rect.dy) ∧
    (((eligibleChildren minsize file).map FileObject.size).sum < file.size →
      0 < rect.dx * rect.dy →
      (scaledSizes minsize file rect).sum < rect.dx * rect.dy) := by
  have hsum : (scaledSizes minsize file rect).sum =
      (((eligibleChildren minsize file).map FileObject.size).sum : ℚ) /
        (file.size : ℚ) * (rect.dx * rect.dy) := by
    rw [scaledSizes, sum_map_div_mul]
  refine ⟨?_, hsum, ?_, ?_⟩
  · intro i h1 h2
    simp [scaledSizes]
  · intro hagg harea
    rw [hsum]
    have hle : ((eligibleChildren minsize file).map FileObject.size).sum ≤
        file.size := le_trans sum_eligible_le hagg
    have hdiv : (((eligibleChildren minsize file).map FileObject.size).sum : ℚ) /
        (file.size : ℚ) ≤ 1 := by
      rw [div_le_one (by exact_mod_cast hsz)]
      exact_mod_cast hle
    calc (((eligibleChildren minsize file).map FileObject.size).sum : ℚ) /
          (file.size : ℚ) * (rect.dx * rect.dy)
        ≤ 1 * (rect.dx * rect.dy) := mul_le_mul_of_nonneg_right hdiv harea
      _ = rect.dx * rect.dy := one_mul _
  · intro hlt harea
    rw [hsum]
    have hdiv : (((eligibleChildren minsize file).map FileObject.size).sum : ℚ) /
        (file.size : ℚ) < 1 := by
      rw [div_lt_one (by exact_mod_cast hsz)]
      exact_mod_cast hlt
    calc (((eligibleChildren minsize file).map FileObject.size).sum : ℚ) /
          (file.size : ℚ) * (rect.dx * rect.dy)
        < 1 * (rect.dx * rect.dy) := mul_lt_mul_of_pos_right hdiv harea
      _ = rect.dx * rect.dy := one_mul _

/-- Witness for C4 at the size-6 root with children 5 and 1, threshold 3 and
the unit rectangle: the area list is `[5/6]`, summing to `5/6 < 1` — the
pruned child's 1/6 share is absorbed, under-filling the rectangle. -/
theorem scaled_area_full_parent_fraction_witness :
    (scaledSizes 3 exTree3 ⟨0, 0, 1, 1⟩).sum =
      (((eligibleChildren 3 exTree3).map FileObject.size).sum : ℚ) /
        ((exTree3.size : ℚ)) * ((1 : ℚ) * 1) ∧
    (scaledSizes 3 exTree3 ⟨0, 0, 1, 1⟩).sum < (1 : ℚ) * 1 := by
  have h := scaled_area_full_parent_fraction 3 exTree3 ⟨0, 0, 1, 1⟩ (by decide)
  refine ⟨h.2.1, ?_⟩
  refine h.2.2.2 ?_ (by norm_num)
  have helig : eligibleChildren 3 exTree3 = [.mk "r\\a" 5 "" []] := by
    simp [eligibleChildren, exTree3, FileObject.children, FileObject.size,
      List.filter_cons]
  rw [helig]
  decide

/-! ### Legend bookkeeping (claim C9) -/

theorem drawNode_legend_invariant (rnd : Nat → Nat) (file : FileObject)
    (rect : Rect) (s : DrawState)
    (h : s.legend.Nodup ∧ ∀ k, k ∈ s.legend ↔ k ∈ s.extensionCount) :
    (drawNode rnd file rect s).legend.Nodup ∧
      ∀ k, k ∈ (drawNode rnd file rect s).legend ↔
        k ∈ (drawNode rnd file rect s).extensionCount := by
  rw [drawNode_legend, drawNode_extensionCount]
  by_cases hc : file.extension ∈ s.legend
  · rw [if_pos hc]
    refine ⟨h.1, fun k => ?_⟩
    simp only [List.mem_append, List.mem_singleton]
    constructor
    · exact fun hk => Or.inl ((h.2 k).mp hk)
    · rintro (hk | rfl)
      · exact (h.2 k).mpr hk
      · exact hc
  · rw [if_neg hc]
    have hdisj : s.legend.Disjoint [file.extension] := by
      intro a ha hb
      rw [List.mem_singleton] at hb
      exact hc (hb ▸ ha)
    refine ⟨h.1.append (List.nodup_singleton _) hdisj, fun k => ?_⟩
    simp only [List.mem_append, List.mem_singleton]
    rw [h.2 k]

theorem draw_legend_invariant (rnd : Nat → Nat) (sq : List ℚ → Rect → List Rect)
    (minsize : Nat) :
    ∀ file : FileObject, ∀ rect s,
      (s.legend.Nodup ∧ ∀ k, k ∈ s.legend ↔ k ∈ s.extensionCount) →
      ((draw rnd sq minsize file rect s).legend.Nodup ∧
        ∀ k, k ∈ (draw rnd sq minsize file rect s).legend ↔
          k ∈ (draw rnd sq minsize file rect s).extensionCount) := by
  intro file
  induction file using FileObject.strongInd with
  | h p sz lb cs ih =>
    intro rect s hs
    rw [draw_eq]
    refine foldl_inv
      (fun st : DrawState => st.legend.Nodup ∧
        ∀ k, k ∈ st.legend ↔ k ∈ st.extensionCount)
      _ _ ?_ _ (drawNode_legend_invariant rnd _ rect s hs)
    intro x hx acc hacc
    exact ih x.1 (mem_eligibleChildren.mp (List.of_mem_zip hx).1).1 x.2 acc hacc

theorem make_legend_spec (st : DrawState) (hnd : st.legend.Nodup)
    (hmem : ∀ k, k ∈ st.legend ↔ k ∈ st.extensionCount) :
    (make_legend st).Nodup ∧
    (∀ k, k ∈ make_legend st ↔ k ∈ st.extensionCount) ∧
    (make_legend st).Pairwise
      (fun a b => st.extensionCount.count b ≤ st.extensionCount.count a) ∧
    (∀ n : Nat,
      (make_legend st).filter (fun k => st.extensionCount.count k == n) =
        st.legend.filter (fun k => st.extensionCount.count k == n)) := by
  have hperm : (make_legend st).Perm st.legend := List.mergeSort_perm _ _
  have htrans : ∀ a b c : String,
      decide (st.extensionCount.count b ≤ st.extensionCount.count a) = true →
      decide (st.extensionCount.count c ≤ st.extensionCount.count b) = true →
      decide (st.extensionCount.count c ≤ st.extensionCount.count a) = true := by
    intro a b c h1 h2
    simp only [decide_eq_true_eq] at *
    omega
  have htotal : ∀ a b : String,
      (decide (st.extensionCount.count b ≤ st.extensionCount.count a) ||
        decide (st.extensionCount.count a ≤ st.extensionCount.count b)) = true := by
    intro a b
    rcases Nat.le_total (st.extensionCount.count b) (st.extensionCount.count a)
      with h | h <;> simp [h]
  refine ⟨hperm.nodup_iff.mpr hnd, fun k => hperm.mem_iff.trans (hmem k), ?_, ?_⟩
  · have := List.sorted_mergeSort htrans htotal st.legend
    exact this.imp fun h => by simpa using h
  · intro n
    set p : String → Bool := fun k => st.extensionCount.count k == n with hp
    have hps : ∀ k, p k = true → st.extensionCount.count k = n := by
      intro k hk
      simpa [hp] using hk
    have hqpair : (st.legend.filter p).Pairwise
        (fun a b => decide (st.extensionCount.count b ≤
          st.extensionCount.count a) = true) := by
      refine List.pairwise_of_forall_mem_list ?_
      intro a ha b hb
      have hca := hps a (List.mem_filter.mp ha).2
      have hcb := hps b (List.mem_filter.mp hb).2
      simp [hca, hcb]
    have hqsub : (st.legend.filter p).Sublist (make_legend st) :=
      List.sublist_mergeSort htrans htotal hqpair (List.filter_sublist _)
    have hqself : (st.legend.filter p).filter p = st.legend.filter p :=
      List.filter_eq_self.mpr fun a ha => (List.mem_filter.mp ha).2
    have hsubf : (st.legend.filter p).Sublist ((make_legend st).filter p) := by
      rw [← hqself]
      exact hqsub.filter p
    have hlen : (st.legend.filter p).length = ((make_legend st).filter p).length :=
      ((hperm.filter p).length_eq).symm
    exact (hsubf.eq_of_length hlen).symm

/-- C9 (confirmed): over a layout pass started from a fresh view state, the
legend holds exactly one entry per distinct extension key encountered
(every `get_color` call appends one encounter to `extension_count`), and
`make_legend` presents the keys sorted by descending encounter frequency,
with equal-frequency keys kept in first-encounter (legend insertion)
order. -/
theorem legend_one_entry_per_key_sorted (rnd : Nat → Nat)
    (sq : List ℚ → Rect → List Rect) (minsize : Nat) (file : FileObject)
    (rect : Rect) (colors0 : List (String × Color)) (ridx0 : Nat) :
    (∀ (rnd' : Nat → Nat) (k : String) (s : DrawState),
      (get_color rnd' k s).2.extensionCount = s.extensionCount ++ [k]) ∧
    ((make_legend (draw rnd sq minsize file rect
        (DirectoryMap.initState colors0 ridx0))).Nodup ∧
      (∀ k, k ∈ make_legend (draw rnd sq minsize file rect
          (DirectoryMap.initState colors0 ridx0)) ↔
        k ∈ (draw rnd sq minsize file rect
          (DirectoryMap.initState colors0 ridx0)).extensionCount) ∧
      (make_legend (draw rnd sq minsize file rect
          (DirectoryMap.initState colors0 ridx0))).Pairwise
        (fun a b =>
          (draw rnd sq minsize file rect
            (DirectoryMap.initState colors0 ridx0)).extensionCount.count b ≤
          (draw rnd sq minsize file rect
            (DirectoryMap.initState colors0 ridx0)).extensionCount.count a) ∧
      (∀ n : Nat,
        (make_legend (draw rnd sq minsize file rect
            (DirectoryMap.initState colors0 ridx0))).filter
          (fun k => (draw rnd sq minsize file rect
            (DirectoryMap.initState colors0 ridx0)).extensionCount.count k == n) =
        (draw rnd sq minsize file rect
            (DirectoryMap.initState colors0 ridx0)).legend.filter
          (fun k => (draw rnd sq minsize file rect
            (DirectoryMap.initState colors0 ridx0)).extensionCount.count k == n))) := by
  refine ⟨get_color_extensionCount, ?_⟩
  have hinv := draw_legend_invariant rnd sq minsize file rect
    (DirectoryMap.initState colors0 ridx0)
    ⟨List.nodup_nil, by simp [DirectoryMap.initState]⟩
  exact make_legend_spec _ hinv.1 hinv.2

end PyDirMap
